import Mathlib

/-!
Verification of the monorepo scripts

Shallow embedding of `scripts/check-versions.js` (dependency version consistency
checker) and `plugin/scripts/bundle.js` (deployment orchestrator), followed by the
theorems that settle the specification claims C1..C10.

Modelling conventions

* A JavaScript plain object with string values is the list of its own properties in
  creation order (`Obj`).  `Object.entries` and the spread operator enumerate the
  array-index keys first, in ascending numeric order, and then the other keys in creation
  order (`ownEntries`).
* A `Map` and a `Set` are lists in insertion order.
* An uncaught exception is `none` / `Outcome.crashed`.
* The file system and the external tools are an explicit environment (`World`, `Env`).
-/

set_option autoImplicit false

namespace CheckVersions

/-! ## JavaScript objects -/

/-- Own properties of a plain object with string values, in creation order. -/
abbrev Obj := List (String × String)

/-- Property read `o[k]` restricted to own string-valued properties. -/
def getProp : Obj → String → Option String
  | [], _ => none
  | (k', v') :: o, k => if k' = k then some v' else getProp o k

/-- Property write `o[k] = v` (CreateDataProperty): an existing key keeps its position. -/
def setProp : Obj → String → String → Obj
  | [], k, v => [(k, v)]
  | (k', v') :: o, k, v => if k' = k then (k', v) :: o else (k', v') :: setProp o k v

/-- Numeric value of a key that is a canonical array index (`"0"`, `"7"`, `"42"`, ...,
below `2^32 - 1`); `none` for every other key. -/
def arrayIndex (s : String) : Option Nat :=
  let cs := s.data
  if cs ≠ [] ∧ cs.all Char.isDigit = true ∧ (cs.head? ≠ some '0' ∨ cs.length = 1) then
    let n := cs.foldl (fun acc c => 10 * acc + (c.toNat - 48)) 0
    if n < 4294967295 then some n else none
  else none

/-- Order of two array-index keys. -/
def indexLe (a b : String × String) : Prop :=
  (arrayIndex a.1).getD 0 ≤ (arrayIndex b.1).getD 0

instance : DecidableRel indexLe := fun a b =>
  inferInstanceAs (Decidable ((arrayIndex a.1).getD 0 ≤ (arrayIndex b.1).getD 0))

/-- Enumeration order of own properties (`Object.entries`, spread): array-index keys
ascending, then the remaining keys in creation order. -/
def ownEntries (o : Obj) : List (String × String) :=
  (o.filter (fun kv => (arrayIndex kv.1).isSome)).insertionSort indexLe
    ++ o.filter (fun kv => !(arrayIndex kv.1).isSome)

/-- Spread of `src` into an object literal under construction: `{ ...target, ...src }`. -/
def spread (target src : Obj) : Obj :=
  (ownEntries src).foldl (fun o kv => setProp o kv.1 kv.2) target

/-- Object built by `JSON.parse` from the members of a JSON object in text order
(a repeated member name overwrites the earlier value). -/
def jsonObject (members : List (String × String)) : Obj :=
  members.foldl (fun o kv => setProp o kv.1 kv.2) []

/-! ## Manifests and the workspace -/

/-- The part of a parsed `package.json` the script reads: the members of the
`dependencies` and `devDependencies` objects, in text order (an absent field is the
empty list: spreading `undefined` adds nothing). -/
structure Manifest where
  dependencies : List (String × String)
  devDependencies : List (String × String)
  deriving DecidableEq, Repr

/-- A directory entry returned by `readdirSync('.', { withFileTypes: true })`. -/
structure Dirent where
  name : String
  isDirectory : Bool
  deriving DecidableEq, Repr

/-- The environment of one run: the directory listing in the order `readdirSync`
returns it, and the result of `JSON.parse(readFileSync(path, 'utf-8'))` for every path
(`none` when the read or the parse throws). -/
structure World where
  listing : List Dirent
  readJson : String → Option Manifest

/-- Lines 6-8: names of the directories whose name starts with `mcp-`. -/
def directories (w : World) : List String :=
  (w.listing.filter
    (fun dirent => dirent.isDirectory && "mcp-".data.isPrefixOf dirent.name.data)).map
    (fun dirent => dirent.name)

/-- Line 10: `join(dir, 'package.json')`. -/
def manifestPath (dir : String) : String := dir ++ "/package.json"

/-- Line 10: the manifest paths, in listing order. -/
def packages (w : World) : List String := (directories w).map manifestPath

/-- Lines 17 and 33: `{ ...pkg.dependencies, ...pkg.devDependencies }`. -/
def mergedDeps (pkg : Manifest) : Obj :=
  spread (spread [] (jsonObject pkg.dependencies)) (jsonObject pkg.devDependencies)

/-! ## The version index (lines 11-23) -/

/-- The `versions` map: dependency name to the set of its version strings, both in
insertion order. -/
abbrev VersionMap := List (String × List String)

/-- The method `Set.prototype.add`. -/
def setAdd (s : List String) (v : String) : List String :=
  if v ∈ s then s else s ++ [v]

/-- The method `Map.prototype.has`. -/
def mapHas (versions : VersionMap) (name : String) : Bool :=
  versions.any (fun e => e.1 == name)

/-- The method `Map.prototype.get`, with `[]` for an absent key. -/
def mapGet : VersionMap → String → List String
  | [], _ => []
  | (k, s) :: versions, name => if k = name then s else mapGet versions name

/-- Lines 20-21: one step of the inner loop. -/
def addVersion (versions : VersionMap) (name version : String) : VersionMap :=
  let versions1 := if mapHas versions name then versions else versions ++ [(name, [])]
  versions1.map (fun e => if e.1 = name then (e.1, setAdd e.2 version) else e)

/-- Lines 17-22: the inner loop for one parsed manifest. -/
def indexPackage (versions : VersionMap) (pkg : Manifest) : VersionMap :=
  (ownEntries (mergedDeps pkg)).foldl (fun vs kv => addVersion vs kv.1 kv.2) versions

/-- Lines 15-23: the outer loop; `none` when a manifest cannot be read or parsed. -/
def buildIndex (readJson : String → Option Manifest) :
    List String → VersionMap → Option VersionMap
  | [], versions => some versions
  | pkgPath :: rest, versions =>
    match readJson pkgPath with
    | none => none
    | some pkg => buildIndex readJson rest (indexPackage versions pkg)

/-! ## The report (lines 25-52) -/

/-- One printed line `version used by: ...` of a violation. -/
structure Usage where
  version : String
  pkgs : List String
  deriving DecidableEq, Repr

/-- One printed block `Inconsistent versions for name:`. -/
structure Violation where
  name : String
  usages : List Usage
  deriving DecidableEq, Repr

/-- Line 36: `p.split('/')[0]`. -/
def firstSegment (p : String) : String := String.mk (p.data.takeWhile (fun c => c ≠ '/'))

/-- Lines 31-35: `packages.filter(...)`, re-reading every manifest. -/
def usedBy (readJson : String → Option Manifest) (name version : String) :
    List String → Option (List String)
  | [] => some []
  | p :: rest =>
    match readJson p with
    | none => none
    | some pkg =>
      match usedBy readJson name version rest with
      | none => none
      | some found =>
        if getProp (mergedDeps pkg) name = some version then some (p :: found) else some found

/-- Lines 30-37: one usage line per version of the set. -/
def usageLines (readJson : String → Option Manifest) (pkgPaths : List String)
    (name : String) : List String → Option (List Usage)
  | [] => some []
  | version :: rest =>
    match usedBy readJson name version pkgPaths with
    | none => none
    | some pkgs =>
      match usageLines readJson pkgPaths name rest with
      | none => none
      | some lines => some (⟨version, pkgs.map firstSegment⟩ :: lines)

/-- Lines 25-41: the report loop, threading the violations printed so far and the flag
`hasInconsistency`. -/
def reportLoop (readJson : String → Option Manifest) (pkgPaths : List String) :
    VersionMap → List Violation × Bool → Option (List Violation × Bool)
  | [], st => some st
  | (name, versionSet) :: rest, (printed, hasInconsistency) =>
    if versionSet.length > 1 then
      match usageLines readJson pkgPaths name versionSet with
      | none => none
      | some lines => reportLoop readJson pkgPaths rest (printed ++ [⟨name, lines⟩], true)
    else reportLoop readJson pkgPaths rest (printed, hasInconsistency)

/-- How a run ends: an uncaught exception, or the end of the script with the violations
printed and the process exit status. -/
inductive Outcome where
  | crashed
  | exited (report : List Violation) (status : Nat)
  deriving DecidableEq, Repr

/-- Exit status of the process: Node ends a process with status 1 on an uncaught
exception. -/
def Outcome.status : Outcome → Nat
  | .crashed => 1
  | .exited _ status => status

/-- The violations printed by the run: none when the exception of line 16 ends it, the
report loop not having started. -/
def Outcome.violations : Outcome → List Violation
  | .crashed => []
  | .exited report _ => report

/-- The whole script. -/
def checkVersions (w : World) : Outcome :=
  match buildIndex w.readJson (packages w) [] with
  | none => .crashed
  | some versions =>
    match reportLoop w.readJson (packages w) versions ([], false) with
    | none => .crashed
    | some (report, hasInconsistency) =>
      if hasInconsistency then .exited report 1 else .exited report 0

/-! ## Notions used to state the properties -/

/-- Every manifest of the workspace can be read and parsed. -/
def Readable (w : World) : Prop := ∀ p ∈ packages w, (w.readJson p).isSome = true

/-- No directory name of the listing contains the path separator. -/
def WellNamed (w : World) : Prop := ∀ dirent ∈ w.listing, '/' ∉ dirent.name.data

/-- The version string the package at `pkgPath` holds for `name` in its merged dependency
map (`deps[name]`), if the manifest loads and has the name. -/
def declaredVersion (w : World) (pkgPath name : String) : Option String :=
  match w.readJson pkgPath with
  | none => none
  | some pkg => getProp (mergedDeps pkg) name

/-- Every `(name, version)` pair the manifest at `pkgPath` lists, in `dependencies` or in
`devDependencies`. -/
def listed (w : World) (pkgPath : String) : List (String × String) :=
  match w.readJson pkgPath with
  | none => []
  | some pkg => jsonObject pkg.dependencies ++ jsonObject pkg.devDependencies

/-- The manifest at `pkgPath` lists `name` with `version` in one of its two maps. -/
def Lists (w : World) (pkgPath name version : String) : Prop :=
  (name, version) ∈ listed w pkgPath

/-- No manifest of the workspace lists a name in both of its dependency maps. -/
def NoOverlap (w : World) : Prop :=
  ∀ p ∈ packages w, ∀ pkg ∈ w.readJson p,
    ∀ name ∈ (jsonObject pkg.dependencies).map Prod.fst,
      name ∉ (jsonObject pkg.devDependencies).map Prod.fst

/-- Any two entries listed for the same name, by any packages and in any of their maps,
carry the same version string. -/
def Agreeing (w : World) : Prop :=
  ∀ p1 ∈ packages w, ∀ p2 ∈ packages w, ∀ e1 ∈ listed w p1, ∀ e2 ∈ listed w p2,
    e1.1 = e2.1 → e1.2 = e2.2

instance (w : World) : Decidable (Readable w) := by
  unfold Readable; infer_instance

instance (w : World) : Decidable (WellNamed w) := by
  unfold WellNamed; infer_instance

instance (w : World) (pkgPath name version : String) :
    Decidable (Lists w pkgPath name version) := by
  unfold Lists; infer_instance

instance (w : World) : Decidable (NoOverlap w) := by
  unfold NoOverlap; infer_instance

instance (w : World) : Decidable (Agreeing w) := by
  unfold Agreeing; infer_instance

/-- The `(name, version)` entries met by the index build loop, in processing order. -/
def declarations (readJson : String → Option Manifest) (pkgPaths : List String) :
    List (String × String) :=
  pkgPaths.flatMap (fun p =>
    match readJson p with
    | none => []
    | some pkg => ownEntries (mergedDeps pkg))

/-- Names of the violations of a report, in print order. -/
def reportedNames (report : List Violation) : List String := report.map (fun v => v.name)

/-- The usage lines printed for `name` when its version set is `versionSet`. -/
def usagesOf (w : World) (name : String) (versionSet : List String) : List Usage :=
  versionSet.map (fun v =>
    ⟨v, ((packages w).filter
      (fun p => decide (declaredVersion w p name = some v))).map firstSegment⟩)

/-- The index the build loop produces when every manifest loads. -/
def versionIndex (w : World) : VersionMap :=
  (declarations w.readJson (packages w)).foldl (fun vs kv => addVersion vs kv.1 kv.2) []

/-- The report printed when every manifest loads. -/
def reportOf (w : World) : List Violation :=
  ((versionIndex w).filter (fun e => decide (1 < e.2.length))).map
    (fun e => ⟨e.1, usagesOf w e.1 e.2⟩)

/-- The version strings declared for `name`, one per package that has the name in its
merged map, in processing order. -/
def declaredVersions (w : World) (name : String) : List String :=
  (packages w).flatMap (fun p => (declaredVersion w p name).toList)

/-- The dependency names met by the index build loop, in processing order. -/
def declaredNames (w : World) : List String :=
  (declarations w.readJson (packages w)).map Prod.fst

/-! ## Concrete workspaces -/

/-- Packages A and B at `lib@1.0.0`, C at `lib@2.0.0`. -/
def worldABC : World where
  listing := [⟨"mcp-a", true⟩, ⟨"mcp-b", true⟩, ⟨"mcp-c", true⟩]
  readJson := fun p =>
    if p = "mcp-a/package.json" then some ⟨[("lib", "1.0.0")], []⟩
    else if p = "mcp-b/package.json" then some ⟨[("lib", "1.0.0")], []⟩
    else if p = "mcp-c/package.json" then some ⟨[], [("lib", "2.0.0")]⟩
    else none

/-- A caret range in one package, the exact pin in the other. -/
def worldCaret : World where
  listing := [⟨"mcp-a", true⟩, ⟨"notes.txt", false⟩, ⟨"mcp-b", true⟩, ⟨"docs", true⟩]
  readJson := fun p =>
    if p = "mcp-a/package.json" then some ⟨[("lib", "^1.0.0"), ("zod", "3.0.0")], []⟩
    else if p = "mcp-b/package.json" then some ⟨[("zod", "3.0.0")], [("lib", "1.0.0")]⟩
    else none

/-- One package that lists `lib` in both maps, with different version strings. -/
def worldOverlap : World where
  listing := [⟨"mcp-a", true⟩]
  readJson := fun p =>
    if p = "mcp-a/package.json" then some ⟨[("lib", "1.0.0")], [("lib", "2.0.0")]⟩
    else none

/-- Two packages that disagree on `zlib` and on `alib`, `zlib` being declared first. -/
def worldZA : World where
  listing := [⟨"mcp-a", true⟩, ⟨"mcp-b", true⟩]
  readJson := fun p =>
    if p = "mcp-a/package.json" then some ⟨[("zlib", "1.0.0"), ("alib", "1.0.0")], []⟩
    else if p = "mcp-b/package.json" then some ⟨[("zlib", "2.0.0"), ("alib", "2.0.0")], []⟩
    else none

/-- Manifests of two packages that disagree on `lib`. -/
def readAB : String → Option Manifest := fun p =>
  if p = "mcp-a/package.json" then some ⟨[("lib", "1.0.0")], []⟩
  else if p = "mcp-b/package.json" then some ⟨[("lib", "2.0.0")], []⟩
  else none

/-- The two packages listed as `mcp-a`, `mcp-b`. -/
def worldAB : World := ⟨[⟨"mcp-a", true⟩, ⟨"mcp-b", true⟩], readAB⟩

/-- The same two packages listed as `mcp-b`, `mcp-a`. -/
def worldBA : World := ⟨[⟨"mcp-b", true⟩, ⟨"mcp-a", true⟩], readAB⟩

/-- Two directories listed in the order of their names, one name extending the other. -/
def worldExtended : World where
  listing := [⟨"mcp-a", true⟩, ⟨"mcp-a-b", true⟩]
  readJson := fun p =>
    if p = "mcp-a/package.json" then some ⟨[("lib", "1.0.0")], []⟩
    else if p = "mcp-a-b/package.json" then some ⟨[("lib", "2.0.0")], []⟩
    else none

/-- The two packages and a third directory `mcp-0` without a readable manifest. -/
def worldBroken : World := ⟨[⟨"mcp-0", true⟩, ⟨"mcp-a", true⟩, ⟨"mcp-b", true⟩], readAB⟩

/-- Two packages in agreement and a directory `mcp-docs` without `package.json`. -/
def worldAgreeingBroken : World where
  listing := [⟨"mcp-a", true⟩, ⟨"mcp-b", true⟩, ⟨"mcp-docs", true⟩]
  readJson := fun p =>
    if p = "mcp-a/package.json" then some ⟨[("lib", "1.0.0")], []⟩
    else if p = "mcp-b/package.json" then some ⟨[("lib", "1.0.0")], [("tsc", "5.0.0")]⟩
    else none

/-- Three packages in agreement, each name declared by only some of them. -/
def worldAgreeing : World where
  listing := [⟨"mcp-a", true⟩, ⟨"mcp-b", true⟩, ⟨"mcp-c", true⟩]
  readJson := fun p =>
    if p = "mcp-a/package.json" then some ⟨[("lib", "1.0.0")], [("tsc", "5.0.0")]⟩
    else if p = "mcp-b/package.json" then some ⟨[("lib", "1.0.0"), ("zod", "3.0.0")], []⟩
    else if p = "mcp-c/package.json" then some ⟨[], [("tsc", "5.0.0")]⟩
    else none

end CheckVersions

namespace Bundle

/-! ## The deployment orchestrator `plugin/scripts/bundle.js`

The run is modelled by the sequence of its effects (`Event`), in program order, and by
one record per service of the loop.  `console.log` lines are not recorded. -/

/-- Two-segment `path.join`. -/
def join (a b : String) : String := a ++ "/" ++ b

/-- The characters of `s.replace(pattern, '')`: the first occurrence of the pattern
removed. -/
def removeFirst (pattern : List Char) : List Char → List Char
  | [] => []
  | c :: cs =>
    if pattern.isPrefixOf (c :: cs) then (c :: cs).drop pattern.length
    else c :: removeFirst pattern cs

/-- Line 53: `service.replace('mcp-', '')`. -/
def deployDirName (service : String) : String :=
  String.mk (removeFirst "mcp-".data service.data)

/-- Lines 30-37: the service registry. -/
def services : List String :=
  ["mcp-domain-checker", "mcp-domain-checker-price", "mcp-gitlab-ci", "mcp-opener",
   "mcp-stream-workflow", "mcp-stream-workflow-status"]

/-- The environment of one run.  The source tree is not written by the run, so the
existence of a source path is a fixed predicate. -/
structure Env where
  /-- Value of `monorepoRoot`. -/
  monorepoRoot : String
  /-- Value of `serversDir`. -/
  serversDir : String
  /-- Entries below `serversDir` left by an earlier run; `none` when the directory does
  not exist. -/
  priorTarget : Option (List String)
  /-- Whether `git submodule update` succeeds. -/
  submoduleOk : Bool
  /-- Whether the batched `pnpm -r build` succeeds. -/
  buildOk : Bool
  /-- Whether `pnpm deploy` succeeds for a service. -/
  deployOk : String → Bool
  /-- Diagnostic text of a failed `pnpm deploy`. -/
  deployDiagnostic : String → String
  /-- The function `existsSync` on source paths. -/
  pathExists : String → Bool

/-- An effect of the run. -/
inductive Event where
  | submoduleUpdate
  | warn (msg : String)
  | error (msg : String)
  | rmTree (path : String)
  | mkdir (path : String)
  | build
  | deploy (service dest : String) (ok : Bool)
  | copy (src dst : String)
  | du
  deriving DecidableEq, Repr

/-- The terminal state of a service (the `DeploymentResult` status of the data model),
read off the branch of the loop body the service takes. -/
inductive Status where
  | sourceMissing
  | extractFailed
  | deployed
  deriving DecidableEq, Repr

/-- What the loop body did for one service. -/
structure ServiceResult where
  service : String
  status : Status
  events : List Event
  deriving DecidableEq, Repr

/-- Lines 76-87: the extra files of `mcp-stream-workflow`. -/
def streamWorkflowExtras (env : Env) (srcPath destPath : String) : List Event :=
  let promptsPath := join srcPath "prompts"
  let templatesPath := join srcPath "templates"
  (if env.pathExists promptsPath then [Event.copy promptsPath (join destPath "prompts")]
    else [])
  ++ (if env.pathExists templatesPath
        then [Event.copy templatesPath (join destPath "templates")]
      else [])

/-- Lines 89-98: the dashboard of `mcp-stream-workflow-status`. -/
def dashboardExtras (env : Env) (service srcPath destPath : String) : List Event :=
  let dashboardDistPath := join (join srcPath "dashboard") "dist"
  if env.pathExists dashboardDistPath then
    [Event.mkdir (join destPath "dashboard"),
     Event.copy dashboardDistPath (join (join destPath "dashboard") "dist")]
  else [Event.warn ("⚠️  Warning: Dashboard not built for " ++ service)]

/-- Lines 52-98: the loop body for one service. -/
def deployService (env : Env) (service : String) : ServiceResult :=
  let srcPath := join env.monorepoRoot service
  let destPath := join env.serversDir (deployDirName service)
  if !env.pathExists srcPath then
    ⟨service, .sourceMissing,
      [Event.warn ("⚠️  Warning: " ++ service ++ " not found at " ++ srcPath)]⟩
  else if !env.deployOk service then
    ⟨service, .extractFailed,
      [Event.deploy service destPath false,
       Event.error ("❌ Failed to deploy " ++ service),
       Event.error (env.deployDiagnostic service)]⟩
  else
    ⟨service, .deployed,
      [Event.deploy service destPath true]
      ++ (if service = "mcp-stream-workflow" then streamWorkflowExtras env srcPath destPath
          else [])
      ++ (if service = "mcp-stream-workflow-status"
            then dashboardExtras env service srcPath destPath
          else [])⟩

/-- Lines 51-99: the loop, appending one record per service to those already made. -/
def deployLoop (env : Env) : List String → List ServiceResult → List ServiceResult
  | [], done => done
  | service :: rest, done => deployLoop env rest (done ++ [deployService env service])

/-- The result of a run: the process exit status, the effects before the loop, the
records of the loop and the effects after it. -/
structure Run where
  exitCode : Nat
  setup : List Event
  results : List ServiceResult
  closing : List Event
  deriving DecidableEq, Repr

/-- Lines 12-48: submodule update, reset of the servers directory, batched build. -/
def setupEvents (env : Env) : List Event :=
  [Event.submoduleUpdate]
  ++ (if env.submoduleOk then []
      else [Event.warn "⚠️  Warning: Failed to initialize git submodules",
            Event.warn "   If running outside git repo, this is expected."])
  ++ (if env.priorTarget.isSome then [Event.rmTree env.serversDir] else [])
  ++ [Event.mkdir env.serversDir, Event.build]

/-- The whole script over a registry. -/
def bundleWith (env : Env) (registry : List String) : Run :=
  if !env.buildOk then
    ⟨1, setupEvents env ++ [Event.error "❌ Build failed"], [], []⟩
  else
    ⟨0, setupEvents env, deployLoop env registry [], [Event.du]⟩

/-- The whole script. -/
def bundle (env : Env) : Run := bundleWith env services

/-- All effects of a run, in program order. -/
def Run.events (r : Run) : List Event :=
  r.setup ++ r.results.flatMap (fun res => res.events) ++ r.closing

/-- Effect of one event on the entries below the servers directory. -/
def applyEvent (serversDir : String) (entries : List String) : Event → List String
  | .rmTree path => if path = serversDir then [] else entries
  | .mkdir path => if path = serversDir then entries else entries ++ [path]
  | .deploy _ dest true => entries ++ [dest]
  | .copy _ dst => entries ++ [dst]
  | _ => entries

/-- Entries below the servers directory after a run. -/
def targetEntries (env : Env) (r : Run) : List String :=
  r.events.foldl (applyEvent env.serversDir) (env.priorTarget.getD [])

/-- The event invokes the production-dependency extraction. -/
def Event.isDeploy : Event → Bool
  | .deploy _ _ _ => true
  | _ => false

/-- The event copies an artifact. -/
def Event.isCopy : Event → Bool
  | .copy _ _ => true
  | _ => false

/-- The event is a warning. -/
def Event.isWarn : Event → Bool
  | .warn _ => true
  | _ => false

/-- One row of `extraArtifacts` of a `ServiceSpec`. -/
structure ExtraArtifact where
  sourceRelativePath : String
  destRelativePath : String
  required : Bool
  deriving DecidableEq, Repr

/-- The `extraArtifacts` table of the data model, as the specification describes it:
prompts and templates of `mcp-stream-workflow` (optional), dashboard dist of
`mcp-stream-workflow-status` (required). -/
def extraArtifacts (service : String) : List ExtraArtifact :=
  if service = "mcp-stream-workflow" then
    [⟨"prompts", "prompts", false⟩, ⟨"templates", "templates", false⟩]
  else if service = "mcp-stream-workflow-status" then
    [⟨"dashboard/dist", "dashboard/dist", true⟩]
  else []

/-- The environment in which no extraction fails, everything else unchanged. -/
def Env.noExtractFailure (env : Env) : Env := { env with deployOk := fun _ => true }

/-- A checkout in which only the dashboard is missing and `mcp-opener` fails to deploy. -/
def envSample : Env where
  monorepoRoot := "/repo"
  serversDir := "/repo/plugin/servers"
  priorTarget := some ["domain-checker", "opener"]
  submoduleOk := true
  buildOk := true
  deployOk := fun service => decide (service ≠ "mcp-opener")
  deployDiagnostic := fun _ => "ERR_PNPM"
  pathExists := fun path => decide (path ≠ "/repo/mcp-stream-workflow-status/dashboard/dist"
    ∧ path ≠ "/repo/mcp-stream-workflow/templates" ∧ path ≠ "/repo/mcp-gitlab-ci")

/-- The sample checkout with a failing build. -/
def envBuildFails : Env := { envSample with buildOk := false }

end Bundle

namespace CheckVersions

/-! ## Lemmas on objects -/

theorem getProp_setProp (o : Obj) (k v k' : String) :
    getProp (setProp o k v) k' = if k = k' then some v else getProp o k' := by
  induction o with
  | nil => simp [setProp, getProp]
  | cons e o ih =>
    obtain ⟨a, b⟩ := e
    by_cases h : a = k
    · subst h
      by_cases h' : a = k' <;> simp [setProp, getProp, h']
    · by_cases h' : a = k'
      · subst h'
        have : ¬ k = a := fun e => h e.symm
        simp [setProp, getProp, h, this]
      · simp [setProp, getProp, h, h', ih]

theorem keys_setProp (o : Obj) (k v : String) :
    (setProp o k v).map Prod.fst
      = if k ∈ o.map Prod.fst then o.map Prod.fst else o.map Prod.fst ++ [k] := by
  induction o with
  | nil => simp [setProp]
  | cons e o ih =>
    obtain ⟨a, b⟩ := e
    by_cases h : a = k
    · subst h
      simp [setProp]
    · have h' : ¬ k = a := fun e => h e.symm
      by_cases hk : k ∈ o.map Prod.fst
      · simp only [setProp, h, if_false, List.map_cons, ih, hk, if_true, List.mem_cons, or_true]
      · simp only [setProp, h, if_false, List.map_cons, ih, hk, List.mem_cons, h', or_self,
          List.cons_append]

theorem nodup_keys_setProp (o : Obj) (k v : String) (h : (o.map Prod.fst).Nodup) :
    ((setProp o k v).map Prod.fst).Nodup := by
  rw [keys_setProp]
  split
  · exact h
  · rename_i hk
    exact List.Nodup.append h (List.nodup_singleton k) (by simpa using hk)

theorem nodup_keys_foldl_setProp (l : List (String × String)) (o : Obj)
    (h : (o.map Prod.fst).Nodup) :
    ((l.foldl (fun o kv => setProp o kv.1 kv.2) o).map Prod.fst).Nodup := by
  induction l generalizing o with
  | nil => simpa using h
  | cons e l ih => exact ih _ (nodup_keys_setProp o e.1 e.2 h)

/-- With distinct keys, a property read is list membership. -/
theorem getProp_eq_some_iff (o : Obj) (h : (o.map Prod.fst).Nodup) (k v : String) :
    getProp o k = some v ↔ (k, v) ∈ o := by
  induction o with
  | nil => simp [getProp]
  | cons e o ih =>
    obtain ⟨a, b⟩ := e
    rw [List.map_cons, List.nodup_cons] at h
    by_cases hk : a = k
    · subst hk
      have hno : ∀ v, (a, v) ∉ o := fun v hv => h.1 (List.mem_map.mpr ⟨(a, v), hv, rfl⟩)
      simp [getProp, hno, eq_comm]
    · have hk' : ¬ k = a := fun e => hk e.symm
      simp [getProp, hk, hk', ih h.2]

theorem getProp_eq_none_iff (o : Obj) (k : String) :
    getProp o k = none ↔ k ∉ o.map Prod.fst := by
  induction o with
  | nil => simp [getProp]
  | cons e o ih =>
    obtain ⟨a, b⟩ := e
    by_cases hk : a = k
    · subst hk; simp [getProp]
    · have hk' : ¬ k = a := fun e => hk e.symm
      simp [getProp, hk, hk', ih]

theorem ownEntries_perm (o : Obj) : (ownEntries o).Perm o := by
  unfold ownEntries
  exact (List.Perm.append_right _ (List.perm_insertionSort _ _)).trans
    (List.filter_append_perm _ o)

theorem nodup_keys_ownEntries (o : Obj) (h : (o.map Prod.fst).Nodup) :
    ((ownEntries o).map Prod.fst).Nodup :=
  ((ownEntries_perm o).map Prod.fst).nodup_iff.mpr h

/-- Folding property writes over entries with distinct keys: the entries win over the
target. -/
theorem getProp_foldl_setProp (l : List (String × String)) (h : (l.map Prod.fst).Nodup)
    (o : Obj) (k : String) :
    getProp (l.foldl (fun o kv => setProp o kv.1 kv.2) o) k
      = (getProp l k).orElse (fun _ => getProp o k) := by
  induction l generalizing o with
  | nil => simp [getProp]
  | cons e l ih =>
    obtain ⟨a, b⟩ := e
    rw [List.map_cons, List.nodup_cons] at h
    rw [List.foldl_cons, ih h.2, getProp_setProp]
    by_cases hk : a = k
    · subst hk
      have : getProp l a = none := (getProp_eq_none_iff l a).mpr h.1
      simp [getProp, this]
    · simp [getProp, hk]

theorem nodup_keys_jsonObject (members : List (String × String)) :
    ((jsonObject members).map Prod.fst).Nodup :=
  nodup_keys_foldl_setProp members [] (by simp)

theorem getProp_spread (target src : Obj) (h : (src.map Prod.fst).Nodup) (k : String) :
    getProp (spread target src) k = (getProp src k).orElse (fun _ => getProp target k) := by
  unfold spread
  rw [getProp_foldl_setProp _ (nodup_keys_ownEntries src h)]
  have hperm : getProp (ownEntries src) k = getProp src k := by
    cases hs : getProp src k with
    | none =>
      rw [getProp_eq_none_iff] at hs ⊢
      exact fun hm => hs (((ownEntries_perm src).map Prod.fst).mem_iff.mp hm)
    | some v =>
      rw [getProp_eq_some_iff _ h] at hs
      rw [getProp_eq_some_iff _ (nodup_keys_ownEntries src h)]
      exact (ownEntries_perm src).mem_iff.mpr hs
  rw [hperm]

theorem nodup_keys_mergedDeps (pkg : Manifest) : ((mergedDeps pkg).map Prod.fst).Nodup := by
  unfold mergedDeps spread
  exact nodup_keys_foldl_setProp _ _ (nodup_keys_foldl_setProp _ _ (by simp))

/-- The merged map keeps the `devDependencies` value when a name is in both maps. -/
theorem getProp_mergedDeps (pkg : Manifest) (k : String) :
    getProp (mergedDeps pkg) k
      = (getProp (jsonObject pkg.devDependencies) k).orElse
          (fun _ => getProp (jsonObject pkg.dependencies) k) := by
  unfold mergedDeps
  rw [getProp_spread _ _ (nodup_keys_jsonObject _), getProp_spread _ _ (nodup_keys_jsonObject _)]
  simp [getProp]

theorem mem_ownEntries_mergedDeps (pkg : Manifest) (k v : String) :
    (k, v) ∈ ownEntries (mergedDeps pkg) ↔ getProp (mergedDeps pkg) k = some v := by
  rw [getProp_eq_some_iff _ (nodup_keys_mergedDeps pkg)]
  exact (ownEntries_perm _).mem_iff

/-! ## Lemmas on the version index -/

theorem mapHas_iff (versions : VersionMap) (name : String) :
    mapHas versions name = true ↔ name ∈ versions.map Prod.fst := by
  unfold mapHas
  simp only [List.any_eq_true, beq_iff_eq, List.mem_map]

theorem mapGet_cons (e : String × List String) (versions : VersionMap) (name : String) :
    mapGet (e :: versions) name = if e.1 = name then e.2 else mapGet versions name := by
  obtain ⟨k, s⟩ := e
  rfl

theorem mapGet_of_not_mem (versions : VersionMap) (name : String)
    (h : name ∉ versions.map Prod.fst) : mapGet versions name = [] := by
  induction versions with
  | nil => rfl
  | cons e versions ih =>
    obtain ⟨k, s⟩ := e
    simp only [List.map_cons, List.mem_cons, not_or] at h
    have hk : ¬ k = name := fun e => h.1 e.symm
    simp [mapGet, hk, ih h.2]

theorem mapGet_append_empty (versions : VersionMap) (name name' : String) :
    mapGet (versions ++ [(name, [])]) name' = mapGet versions name' := by
  induction versions with
  | nil => by_cases h : name = name' <;> simp [mapGet, h]
  | cons e versions ih =>
    rw [List.cons_append, mapGet_cons, mapGet_cons, ih]

theorem mapGet_map_add (versions : VersionMap) (name version name' : String) :
    mapGet (versions.map
        (fun e => if e.1 = name then (e.1, setAdd e.2 version) else e)) name'
      = if name = name' ∧ name' ∈ versions.map Prod.fst
          then setAdd (mapGet versions name') version else mapGet versions name' := by
  induction versions with
  | nil => simp [mapGet]
  | cons e versions ih =>
    obtain ⟨k, s⟩ := e
    rw [List.map_cons, mapGet_cons, ih, mapGet_cons]
    by_cases hk : k = name'
    · subst hk
      by_cases hn : k = name
      · subst hn; simp
      · have hn' : ¬ name = k := fun e => hn e.symm
        simp [hn, hn']
    · have hk' : ¬ name' = k := fun e => hk e.symm
      have hmem : name' ∈ List.map Prod.fst ((k, s) :: versions)
          ↔ name' ∈ List.map Prod.fst versions := by simp [hk']
      by_cases hn : k = name
      · subst hn
        simp [hk, hk']
      · simp only [hn, hk, if_false, hmem]

theorem mapGet_addVersion (versions : VersionMap) (name version name' : String) :
    mapGet (addVersion versions name version) name'
      = if name = name' then setAdd (mapGet versions name') version
        else mapGet versions name' := by
  unfold addVersion
  simp only [mapGet_map_add]
  by_cases hn : name = name'
  · subst hn
    by_cases hh : mapHas versions name = true
    · have := (mapHas_iff versions name).mp hh
      simp [hh, this]
    · simp [hh, mapGet_append_empty]
  · simp [hn]
    split <;> simp [mapGet_append_empty]

theorem keys_addVersion (versions : VersionMap) (name version : String) :
    (addVersion versions name version).map Prod.fst = setAdd (versions.map Prod.fst) name := by
  have hmap : ∀ l : VersionMap,
      (l.map (fun e => if e.1 = name then (e.1, setAdd e.2 version) else e)).map Prod.fst
        = l.map Prod.fst := by
    intro l
    rw [List.map_map]
    apply List.map_congr_left
    intro e _
    by_cases h : e.1 = name <;> simp [h]
  unfold addVersion
  simp only [hmap]
  by_cases hh : mapHas versions name = true
  · have hm := (mapHas_iff versions name).mp hh
    rw [if_pos hh]
    unfold setAdd
    rw [if_pos hm]
  · have hm : name ∉ versions.map Prod.fst := fun hm => hh ((mapHas_iff versions name).mpr hm)
    rw [if_neg hh]
    unfold setAdd
    rw [if_neg hm, List.map_append]
    rfl

theorem keys_foldl_addVersion (decls : List (String × String)) (versions : VersionMap) :
    (decls.foldl (fun vs kv => addVersion vs kv.1 kv.2) versions).map Prod.fst
      = (decls.map Prod.fst).foldl setAdd (versions.map Prod.fst) := by
  induction decls generalizing versions with
  | nil => rfl
  | cons e decls ih => simp [ih, keys_addVersion]

theorem mapGet_foldl_addVersion (decls : List (String × String)) (versions : VersionMap)
    (name : String) :
    mapGet (decls.foldl (fun vs kv => addVersion vs kv.1 kv.2) versions) name
      = ((decls.filter (fun kv => kv.1 = name)).map Prod.snd).foldl setAdd
          (mapGet versions name) := by
  induction decls generalizing versions with
  | nil => rfl
  | cons e decls ih =>
    obtain ⟨k, v⟩ := e
    by_cases hk : k = name
    · subst hk; simp [ih, mapGet_addVersion]
    · simp [ih, mapGet_addVersion, hk]

theorem mem_foldl_setAdd (xs acc : List String) (x : String) :
    x ∈ xs.foldl setAdd acc ↔ x ∈ acc ∨ x ∈ xs := by
  induction xs generalizing acc with
  | nil => simp
  | cons y xs ih =>
    rw [List.foldl_cons, ih]
    unfold setAdd
    by_cases hy : y ∈ acc
    · simp only [hy, if_true, List.mem_cons]
      constructor
      · rintro (h | h)
        · exact Or.inl h
        · exact Or.inr (Or.inr h)
      · rintro (h | h | h)
        · exact Or.inl h
        · exact Or.inl (h ▸ hy)
        · exact Or.inr h
    · simp only [hy, if_false, List.mem_append, List.mem_singleton, List.mem_cons]
      tauto

theorem nodup_setAdd (acc : List String) (x : String) (h : acc.Nodup) :
    (setAdd acc x).Nodup := by
  unfold setAdd
  split
  · exact h
  · rename_i hx
    exact List.Nodup.append h (List.nodup_singleton x) (by simpa using hx)

theorem nodup_foldl_setAdd (xs acc : List String) (h : acc.Nodup) :
    (xs.foldl setAdd acc).Nodup := by
  induction xs generalizing acc with
  | nil => simpa using h
  | cons y xs ih => exact ih _ (nodup_setAdd acc y h)

/-- With distinct keys, a map is determined by its key order and `mapGet`. -/
theorem versionMap_eq (versions : VersionMap) (h : (versions.map Prod.fst).Nodup) :
    versions = (versions.map Prod.fst).map (fun n => (n, mapGet versions n)) := by
  induction versions with
  | nil => rfl
  | cons e versions ih =>
    obtain ⟨k, s⟩ := e
    rw [List.map_cons, List.nodup_cons] at h
    simp only [List.map_cons, mapGet, if_true, List.map_map, List.cons.injEq, true_and]
    conv_lhs => rw [ih h.2]
    rw [List.map_map]
    apply List.map_congr_left
    intro e he
    have hne : ¬ k = e.1 := fun hk => h.1 (List.mem_map.mpr ⟨e, he, hk.symm⟩)
    simp [mapGet, hne]

/-! ## Lemmas on the two loops -/

theorem buildIndex_eq (readJson : String → Option Manifest) (pkgPaths : List String)
    (versions : VersionMap) (h : ∀ p ∈ pkgPaths, ∃ pkg, readJson p = some pkg) :
    buildIndex readJson pkgPaths versions
      = some ((declarations readJson pkgPaths).foldl
          (fun vs kv => addVersion vs kv.1 kv.2) versions) := by
  induction pkgPaths generalizing versions with
  | nil => rfl
  | cons p rest ih =>
    obtain ⟨pkg, hp⟩ := h p (List.mem_cons_self _ _)
    have hrest : ∀ q ∈ rest, ∃ pkg, readJson q = some pkg :=
      fun q hq => h q (List.mem_cons_of_mem _ hq)
    simp only [buildIndex, hp, ih _ hrest, declarations, List.flatMap_cons, List.foldl_append,
      indexPackage]

theorem buildIndex_none (readJson : String → Option Manifest) (pkgPaths : List String)
    (versions : VersionMap) (h : ∃ p ∈ pkgPaths, readJson p = none) :
    buildIndex readJson pkgPaths versions = none := by
  induction pkgPaths generalizing versions with
  | nil => simp at h
  | cons p rest ih =>
    cases hp : readJson p with
    | none => simp [buildIndex, hp]
    | some pkg =>
      obtain ⟨q, hq, hnone⟩ := h
      rcases List.mem_cons.mp hq with rfl | hq'
      · rw [hp] at hnone; cases hnone
      · simp only [buildIndex, hp]
        exact ih _ ⟨q, hq', hnone⟩

theorem usedBy_eq (w : World) (name version : String) (pkgPaths : List String)
    (h : ∀ p ∈ pkgPaths, ∃ pkg, w.readJson p = some pkg) :
    usedBy w.readJson name version pkgPaths
      = some (pkgPaths.filter (fun p => decide (declaredVersion w p name = some version))) := by
  induction pkgPaths with
  | nil => rfl
  | cons p rest ih =>
    obtain ⟨pkg, hp⟩ := h p (List.mem_cons_self _ _)
    have hrest : ∀ q ∈ rest, ∃ pkg, w.readJson q = some pkg :=
      fun q hq => h q (List.mem_cons_of_mem _ hq)
    simp only [usedBy, hp, ih hrest, List.filter_cons, declaredVersion]
    by_cases hv : getProp (mergedDeps pkg) name = some version <;> simp [hv]

theorem Readable.exists_manifest {w : World} (h : Readable w) :
    ∀ p ∈ packages w, ∃ pkg, w.readJson p = some pkg :=
  fun p hp => Option.isSome_iff_exists.mp (h p hp)

theorem usageLines_eq (w : World) (name : String) (versionSet : List String)
    (h : Readable w) :
    usageLines w.readJson (packages w) name versionSet = some (usagesOf w name versionSet) := by
  induction versionSet with
  | nil => rfl
  | cons v rest ih =>
    simp only [usageLines, usedBy_eq w name v (packages w) h.exists_manifest, ih, usagesOf,
      List.map_cons]

theorem reportLoop_eq (w : World) (h : Readable w) (versions : VersionMap)
    (printed : List Violation) (flag : Bool) :
    reportLoop w.readJson (packages w) versions (printed, flag)
      = some (printed ++ (versions.filter (fun e => decide (1 < e.2.length))).map
                (fun e => ⟨e.1, usagesOf w e.1 e.2⟩),
              flag || versions.any (fun e => decide (1 < e.2.length))) := by
  induction versions generalizing printed flag with
  | nil => simp [reportLoop]
  | cons e rest ih =>
    obtain ⟨name, versionSet⟩ := e
    by_cases hlen : 1 < versionSet.length
    · simp [reportLoop, hlen, usageLines_eq w name versionSet h, ih]
    · simp [reportLoop, hlen, ih]

theorem checkVersions_eq (w : World) (h : Readable w) :
    checkVersions w = .exited (reportOf w) (if reportOf w = [] then 0 else 1) := by
  unfold checkVersions
  rw [buildIndex_eq w.readJson (packages w) [] h.exists_manifest]
  simp only [reportLoop_eq w h, List.nil_append, Bool.false_or]
  change (if (versionIndex w).any (fun e => decide (1 < e.2.length)) = true
    then Outcome.exited (reportOf w) 1 else Outcome.exited (reportOf w) 0) = _
  by_cases hany : (versionIndex w).any (fun e => decide (1 < e.2.length)) = true
  · have hne : reportOf w ≠ [] := by
      obtain ⟨e, he, hlen⟩ := List.any_eq_true.mp hany
      intro hnil
      have : (⟨e.1, usagesOf w e.1 e.2⟩ : Violation) ∈ reportOf w :=
        List.mem_map.mpr ⟨e, List.mem_filter.mpr ⟨he, hlen⟩, rfl⟩
      rw [hnil] at this
      cases this
    simp [hany, hne]
  · have hnil : reportOf w = [] := by
      unfold reportOf
      rw [List.map_eq_nil_iff, List.filter_eq_nil_iff]
      intro e he hlen
      exact hany (List.any_eq_true.mpr ⟨e, he, hlen⟩)
    simp [hany, hnil]

theorem checkVersions_crashed (w : World) (h : ∃ p ∈ packages w, w.readJson p = none) :
    checkVersions w = .crashed := by
  unfold checkVersions
  rw [buildIndex_none w.readJson (packages w) [] h]

/-! ## Lemmas on the index and the report of a readable workspace -/

theorem mem_declarations (w : World) (name version : String) :
    (name, version) ∈ declarations w.readJson (packages w)
      ↔ ∃ p ∈ packages w, declaredVersion w p name = some version := by
  unfold declarations declaredVersion
  rw [List.mem_flatMap]
  constructor
  · rintro ⟨p, hp, hmem⟩
    refine ⟨p, hp, ?_⟩
    cases hr : w.readJson p with
    | none => rw [hr] at hmem; cases hmem
    | some pkg =>
      rw [hr] at hmem
      exact (mem_ownEntries_mergedDeps pkg name version).mp hmem
  · rintro ⟨p, hp, hdecl⟩
    refine ⟨p, hp, ?_⟩
    cases hr : w.readJson p with
    | none => rw [hr] at hdecl; cases hdecl
    | some pkg =>
      rw [hr] at hdecl
      exact (mem_ownEntries_mergedDeps pkg name version).mpr hdecl

theorem mem_versions (w : World) (name version : String) :
    version ∈ mapGet (versionIndex w) name
      ↔ ∃ p ∈ packages w, declaredVersion w p name = some version := by
  unfold versionIndex
  rw [mapGet_foldl_addVersion, mem_foldl_setAdd, ← mem_declarations]
  simp only [mapGet, List.not_mem_nil, false_or, List.mem_map, List.mem_filter,
    decide_eq_true_eq]
  constructor
  · rintro ⟨e, ⟨he, hn⟩, hv⟩
    obtain ⟨k, v⟩ := e
    simp only at hn hv
    subst hn hv
    exact he
  · intro h
    exact ⟨(name, version), ⟨h, rfl⟩, rfl⟩

theorem nodup_versions (w : World) (name : String) :
    (mapGet (versionIndex w) name).Nodup := by
  unfold versionIndex
  rw [mapGet_foldl_addVersion]
  exact nodup_foldl_setAdd _ _ (by simp [mapGet])

theorem nodup_keys_versionIndex (w : World) : ((versionIndex w).map Prod.fst).Nodup := by
  unfold versionIndex
  rw [keys_foldl_addVersion]
  exact nodup_foldl_setAdd _ _ (by simp)

theorem reportOf_eq (w : World) :
    reportOf w
      = (((versionIndex w).map Prod.fst).filter
          (fun n => decide (1 < (mapGet (versionIndex w) n).length))).map
          (fun n => ⟨n, usagesOf w n (mapGet (versionIndex w) n)⟩) := by
  unfold reportOf
  conv_lhs => rw [versionMap_eq (versionIndex w) (nodup_keys_versionIndex w)]
  rw [List.filter_map, List.map_map]
  rfl

theorem reportedNames_reportOf (w : World) :
    reportedNames (reportOf w)
      = ((versionIndex w).map Prod.fst).filter
          (fun n => decide (1 < (mapGet (versionIndex w) n).length)) := by
  rw [reportOf_eq]
  unfold reportedNames
  rw [List.map_map]
  exact List.map_id _

theorem one_lt_length_iff (l : List String) (h : l.Nodup) :
    1 < l.length ↔ ∃ a b, a ∈ l ∧ b ∈ l ∧ a ≠ b := by
  constructor
  · intro hlen
    match l, h, hlen with
    | a :: b :: _, h, _ =>
      refine ⟨a, b, by simp, by simp, ?_⟩
      intro hab
      rw [List.nodup_cons] at h
      exact h.1 (hab ▸ List.mem_cons_self _ _)
  · rintro ⟨a, b, ha, hb, hab⟩
    match l, ha, hb with
    | [], ha, _ => cases ha
    | [x], ha, hb =>
      rw [List.mem_singleton] at ha hb
      exact absurd (ha.trans hb.symm) hab
    | _ :: _ :: _, _, _ => simp

theorem mem_reportedNames_iff (w : World) (name : String) :
    name ∈ reportedNames (reportOf w)
      ↔ ∃ p1 ∈ packages w, ∃ p2 ∈ packages w, ∃ v1 v2, v1 ≠ v2 ∧
          declaredVersion w p1 name = some v1 ∧ declaredVersion w p2 name = some v2 := by
  rw [reportedNames_reportOf, List.mem_filter, decide_eq_true_eq,
    one_lt_length_iff _ (nodup_versions w name)]
  constructor
  · rintro ⟨_, v1, v2, h1, h2, hne⟩
    obtain ⟨p1, hp1, hd1⟩ := (mem_versions w name v1).mp h1
    obtain ⟨p2, hp2, hd2⟩ := (mem_versions w name v2).mp h2
    exact ⟨p1, hp1, p2, hp2, v1, v2, hne, hd1, hd2⟩
  · rintro ⟨p1, hp1, p2, hp2, v1, v2, hne, hd1, hd2⟩
    have h1 := (mem_versions w name v1).mpr ⟨p1, hp1, hd1⟩
    have h2 := (mem_versions w name v2).mpr ⟨p2, hp2, hd2⟩
    refine ⟨?_, v1, v2, h1, h2, hne⟩
    by_contra hk
    rw [mapGet_of_not_mem _ _ hk] at h1
    cases h1

theorem readable_of_exited (w : World) (report : List Violation) (status : Nat)
    (h : checkVersions w = .exited report status) : Readable w := by
  intro p hp
  cases hr : w.readJson p with
  | some pkg => rfl
  | none =>
    rw [checkVersions_crashed w ⟨p, hp, hr⟩] at h
    cases h

theorem lists_of_declaredVersion (w : World) (p name version : String)
    (h : declaredVersion w p name = some version) : Lists w p name version := by
  unfold declaredVersion at h
  unfold Lists listed
  cases hr : w.readJson p with
  | none => rw [hr] at h; cases h
  | some pkg =>
    rw [hr] at h
    change getProp (mergedDeps pkg) name = some version at h
    show (name, version) ∈ jsonObject pkg.dependencies ++ jsonObject pkg.devDependencies
    rw [getProp_mergedDeps] at h
    rw [List.mem_append]
    cases hdev : getProp (jsonObject pkg.devDependencies) name with
    | some v =>
      rw [hdev] at h
      exact Or.inr ((getProp_eq_some_iff _ (nodup_keys_jsonObject _) _ _).mp (hdev.trans h))
    | none =>
      rw [hdev] at h
      exact Or.inl ((getProp_eq_some_iff _ (nodup_keys_jsonObject _) _ _).mp h)

theorem declaredVersion_of_lists (w : World) (hno : NoOverlap w) (p name version : String)
    (hp : p ∈ packages w) (h : Lists w p name version) :
    declaredVersion w p name = some version := by
  unfold Lists listed at h
  unfold declaredVersion
  cases hr : w.readJson p with
  | none => rw [hr] at h; cases h
  | some pkg =>
    rw [hr] at h
    change (name, version) ∈ jsonObject pkg.dependencies ++ jsonObject pkg.devDependencies at h
    show getProp (mergedDeps pkg) name = some version
    rw [getProp_mergedDeps]
    rcases List.mem_append.mp h with hdep | hdev
    · have hk : name ∈ (jsonObject pkg.dependencies).map Prod.fst :=
        List.mem_map.mpr ⟨(name, version), hdep, rfl⟩
      have hnk : name ∉ (jsonObject pkg.devDependencies).map Prod.fst :=
        hno p hp pkg hr name hk
      rw [(getProp_eq_none_iff _ _).mpr hnk]
      exact (getProp_eq_some_iff _ (nodup_keys_jsonObject _) _ _).mpr hdep
    · rw [(getProp_eq_some_iff _ (nodup_keys_jsonObject _) _ _).mpr hdev]
      rfl

/-! ## Order lemmas -/

/-- Insertion into a set in first-seen order keeps the relative order of first
occurrences. -/
theorem indexOf_foldl_setAdd (xs acc : List String) (a b : String) :
    List.indexOf a (xs.foldl setAdd acc) < List.indexOf b (xs.foldl setAdd acc)
      ↔ List.indexOf a (acc ++ xs) < List.indexOf b (acc ++ xs) := by
  induction xs generalizing acc with
  | nil => simp
  | cons x xs ih =>
    rw [List.foldl_cons, ih]
    unfold setAdd
    by_cases hx : x ∈ acc
    · rw [if_pos hx]
      by_cases ha : a ∈ acc
      · by_cases hb : b ∈ acc
        · simp only [List.indexOf_append_of_mem ha, List.indexOf_append_of_mem hb]
        · have h1 := List.indexOf_lt_length.mpr ha
          simp only [List.indexOf_append_of_mem ha, List.indexOf_append_of_not_mem hb]
          constructor <;> intro _ <;> omega
      · by_cases hb : b ∈ acc
        · have h1 := List.indexOf_lt_length.mpr hb
          simp only [List.indexOf_append_of_mem hb, List.indexOf_append_of_not_mem ha]
          constructor <;> intro _ <;> omega
        · have hxa : x ≠ a := fun e => ha (e ▸ hx)
          have hxb : x ≠ b := fun e => hb (e ▸ hx)
          simp only [List.indexOf_append_of_not_mem ha, List.indexOf_append_of_not_mem hb,
            List.indexOf_cons_ne _ hxa, List.indexOf_cons_ne _ hxb]
          constructor <;> intro _ <;> omega
    · rw [if_neg hx, List.append_assoc, List.singleton_append]

theorem indexOf_filter (l : List String) (P : String → Bool) (a b : String)
    (ha : P a = true) (hb : P b = true) :
    List.indexOf a (l.filter P) < List.indexOf b (l.filter P)
      ↔ List.indexOf a l < List.indexOf b l := by
  induction l with
  | nil => simp
  | cons x l ih =>
    by_cases hxa : x = a
    · subst hxa
      by_cases hxb : x = b
      · subst hxb; simp
      · simp [List.filter_cons, ha, List.indexOf_cons_ne _ hxb]
    · by_cases hxb : x = b
      · subst hxb
        simp [List.filter_cons, hb, List.indexOf_cons_ne _ hxa]
      · by_cases hP : P x = true
        · simp only [List.filter_cons, hP, if_true, List.indexOf_cons_ne _ hxa,
            List.indexOf_cons_ne _ hxb, Nat.succ_lt_succ_iff, ih]
        · simp only [List.filter_cons, hP, if_false, List.indexOf_cons_ne _ hxa,
            List.indexOf_cons_ne _ hxb, Nat.succ_lt_succ_iff]
          exact ih

theorem getProp_ownEntries (o : Obj) (h : (o.map Prod.fst).Nodup) (k : String) :
    getProp (ownEntries o) k = getProp o k := by
  cases hs : getProp o k with
  | none =>
    rw [getProp_eq_none_iff] at hs ⊢
    exact fun hm => hs (((ownEntries_perm o).map Prod.fst).mem_iff.mp hm)
  | some v =>
    rw [getProp_eq_some_iff _ h] at hs
    rw [getProp_eq_some_iff _ (nodup_keys_ownEntries o h)]
    exact (ownEntries_perm o).mem_iff.mpr hs

/-- With distinct keys, the values filed under a key are the property read. -/
theorem filter_key_eq (l : List (String × String)) (h : (l.map Prod.fst).Nodup)
    (k : String) :
    (l.filter (fun kv => decide (kv.1 = k))).map Prod.snd = (getProp l k).toList := by
  induction l with
  | nil => rfl
  | cons e l ih =>
    obtain ⟨a, b⟩ := e
    rw [List.map_cons, List.nodup_cons] at h
    by_cases hk : a = k
    · subst hk
      have hnone : l.filter (fun kv => decide (kv.1 = a)) = [] := by
        rw [List.filter_eq_nil_iff]
        intro e he hd
        exact h.1 (List.mem_map.mpr ⟨e, he, of_decide_eq_true hd⟩)
      simp [List.filter_cons, getProp, hnone]
    · simp [List.filter_cons, getProp, hk, ih h.2]

theorem versions_of_declarations (w : World) (name : String) :
    ((declarations w.readJson (packages w)).filter (fun kv => decide (kv.1 = name))).map
        Prod.snd = declaredVersions w name := by
  unfold declarations declaredVersions
  generalize packages w = ps
  induction ps with
  | nil => rfl
  | cons p ps ih =>
    rw [List.flatMap_cons, List.flatMap_cons, List.filter_append, List.map_append, ih]
    congr 1
    unfold declaredVersion
    cases hr : w.readJson p with
    | none => rfl
    | some pkg =>
      show ((ownEntries (mergedDeps pkg)).filter _).map Prod.snd = _
      rw [filter_key_eq _ (nodup_keys_ownEntries _ (nodup_keys_mergedDeps pkg)),
        getProp_ownEntries _ (nodup_keys_mergedDeps pkg)]

theorem versions_eq_foldl (w : World) (name : String) :
    mapGet (versionIndex w) name = (declaredVersions w name).foldl setAdd [] := by
  unfold versionIndex
  rw [mapGet_foldl_addVersion]
  have h := versions_of_declarations w name
  simp only [decide_eq_true_eq] at h ⊢
  rw [← h]
  rfl

theorem keys_eq_foldl (w : World) :
    (versionIndex w).map Prod.fst = (declaredNames w).foldl setAdd [] := by
  unfold versionIndex declaredNames
  rw [keys_foldl_addVersion]
  rfl

theorem firstSegment_manifestPath (dir : String) (h : '/' ∉ dir.data) :
    firstSegment (manifestPath dir) = dir := by
  unfold firstSegment manifestPath
  have hgen : ∀ (cs rest : List Char), '/' ∉ cs →
      (cs ++ '/' :: rest).takeWhile (fun c => decide (c ≠ '/')) = cs := by
    intro cs rest hcs
    induction cs with
    | nil => simp [List.takeWhile]
    | cons c cs ih =>
      simp only [List.mem_cons, not_or] at hcs
      have hc : c ≠ '/' := fun e => hcs.1 e.symm
      have ih' := ih hcs.2
      simp only [ne_eq, decide_not] at ih'
      simp [List.takeWhile, hc, ih']
  have hdata : (dir ++ "/package.json").data = dir.data ++ '/' :: "package.json".data := rfl
  rw [hdata, hgen _ _ h]

theorem mem_directories (w : World) (dir : String) (h : dir ∈ directories w) :
    ∃ dirent ∈ w.listing, dirent.name = dir := by
  unfold directories at h
  obtain ⟨dirent, hd, rfl⟩ := List.mem_map.mp h
  exact ⟨dirent, (List.mem_filter.mp hd).1, rfl⟩

theorem usage_pkgs_eq (w : World) (h : WellNamed w) (name version : String) :
    ((packages w).filter
        (fun p => decide (declaredVersion w p name = some version))).map firstSegment
      = (directories w).filter
          (fun dir => decide (declaredVersion w (manifestPath dir) name = some version)) := by
  unfold packages
  rw [List.filter_map, List.map_map]
  have hid : ∀ dir ∈ (directories w).filter
      ((fun p => decide (declaredVersion w p name = some version)) ∘ manifestPath),
      (firstSegment ∘ manifestPath) dir = dir := by
    intro dir hdir
    obtain ⟨dirent, hd, rfl⟩ := mem_directories w dir (List.mem_filter.mp hdir).1
    exact firstSegment_manifestPath _ (h dirent hd)
  rw [List.map_congr_left hid, List.map_id']
  rfl

end CheckVersions



namespace CheckVersions

/-! ## The claims on `check-versions.js` -/

/-- C1: for manifests that load and never list a name in both maps, a name is reported
iff two packages' maps list it with two different version strings (compared as text). -/
theorem violation_iff_two_versions (w : World) (hread : Readable w) (hno : NoOverlap w) :
    ∃ report status, checkVersions w = .exited report status ∧
      ∀ name, name ∈ reportedNames report ↔
        ∃ p1 ∈ packages w, ∃ p2 ∈ packages w, ∃ v1 v2, v1 ≠ v2 ∧
          Lists w p1 name v1 ∧ Lists w p2 name v2 := by
  refine ⟨reportOf w, _, checkVersions_eq w hread, fun name => ?_⟩
  rw [mem_reportedNames_iff]
  constructor
  · rintro ⟨p1, hp1, p2, hp2, v1, v2, hne, h1, h2⟩
    exact ⟨p1, hp1, p2, hp2, v1, v2, hne, lists_of_declaredVersion w p1 name v1 h1,
      lists_of_declaredVersion w p2 name v2 h2⟩
  · rintro ⟨p1, hp1, p2, hp2, v1, v2, hne, h1, h2⟩
    exact ⟨p1, hp1, p2, hp2, v1, v2, hne, declaredVersion_of_lists w hno p1 name v1 hp1 h1,
      declaredVersion_of_lists w hno p2 name v2 hp2 h2⟩

/-- C1 at a workspace declaring `lib` as `^1.0.0` and as `1.0.0`: `lib` is reported. -/
theorem violation_iff_two_versions_witness :
    Readable worldCaret ∧ NoOverlap worldCaret ∧
    checkVersions worldCaret
      = .exited [⟨"lib", [⟨"^1.0.0", ["mcp-a"]⟩, ⟨"1.0.0", ["mcp-b"]⟩]⟩] 1 ∧
    ∃ report status, checkVersions worldCaret = .exited report status ∧
      ∀ name, name ∈ reportedNames report ↔
        ∃ p1 ∈ packages worldCaret, ∃ p2 ∈ packages worldCaret, ∃ v1 v2, v1 ≠ v2 ∧
          Lists worldCaret p1 name v1 ∧ Lists worldCaret p2 name v2 :=
  ⟨by decide, by decide, by decide,
    violation_iff_two_versions worldCaret (by decide) (by decide)⟩

/-- C2 fails as stated: a name listed by one package at two distinct version strings
(once in each map) is declared at two versions, yet the report is empty; and two packages
that declare `lib` at two versions next to a directory whose manifest cannot be read give
no report at all, the run ending by the uncaught exception. -/
theorem overlap_two_versions_unreported :
    Lists worldOverlap "mcp-a/package.json" "lib" "1.0.0" ∧
    Lists worldOverlap "mcp-a/package.json" "lib" "2.0.0" ∧
    "mcp-a/package.json" ∈ packages worldOverlap ∧
    checkVersions worldOverlap = .exited [] 0 ∧
    "mcp-a/package.json" ∈ packages worldBroken ∧
    "mcp-b/package.json" ∈ packages worldBroken ∧
    Lists worldBroken "mcp-a/package.json" "lib" "1.0.0" ∧
    Lists worldBroken "mcp-b/package.json" "lib" "2.0.0" ∧
    declaredVersion worldBroken "mcp-a/package.json" "lib" = some "1.0.0" ∧
    declaredVersion worldBroken "mcp-b/package.json" "lib" = some "2.0.0" ∧
    WellNamed worldBroken ∧
    checkVersions worldBroken = .crashed ∧
    (checkVersions worldBroken).violations = [] := by decide

/-- C2 amended: when every manifest loads and two packages hold different version strings
for a name in their merged maps, the name is reported exactly once, its usage lines carry exactly the
versions held by the packages, each once, each line lists exactly the directories whose
merged map holds that version, and no directory is on two lines. -/
theorem violation_usages_exact (w : World) (hread : Readable w) (hnamed : WellNamed w)
    (name : String)
    (hdecl : ∃ p1 ∈ packages w, ∃ p2 ∈ packages w, ∃ v1 v2, v1 ≠ v2 ∧
      declaredVersion w p1 name = some v1 ∧ declaredVersion w p2 name = some v2) :
    ∃ report status, checkVersions w = .exited report status ∧
      (reportedNames report).count name = 1 ∧
      ∀ viol ∈ report, viol.name = name →
        (viol.usages.map (fun u => u.version)).Nodup ∧
        (∀ v, v ∈ viol.usages.map (fun u => u.version)
          ↔ ∃ p ∈ packages w, declaredVersion w p name = some v) ∧
        (∀ u ∈ viol.usages, u.pkgs = (directories w).filter
          (fun dir => decide (declaredVersion w (manifestPath dir) name = some u.version))) ∧
        (∀ u1 ∈ viol.usages, ∀ u2 ∈ viol.usages, ∀ dir,
          dir ∈ u1.pkgs → dir ∈ u2.pkgs → u1 = u2) := by
  refine ⟨reportOf w, _, checkVersions_eq w hread, ?_, ?_⟩
  · have hnodup : (reportedNames (reportOf w)).Nodup := by
      rw [reportedNames_reportOf]
      exact (nodup_keys_versionIndex w).filter _
    exact List.count_eq_one_of_mem hnodup ((mem_reportedNames_iff w name).mpr hdecl)
  · intro viol hviol hname
    rw [reportOf_eq] at hviol
    obtain ⟨n, _, rfl⟩ := List.mem_map.mp hviol
    simp only at hname
    subst hname
    have hversions : (usagesOf w n (mapGet (versionIndex w) n)).map (fun u => u.version)
        = mapGet (versionIndex w) n := by
      unfold usagesOf
      rw [List.map_map]
      exact List.map_id _
    have hpkgs : ∀ u ∈ usagesOf w n (mapGet (versionIndex w) n),
        u.pkgs = (directories w).filter
          (fun dir => decide (declaredVersion w (manifestPath dir) n = some u.version)) := by
      intro u hu
      unfold usagesOf at hu
      obtain ⟨v, _, rfl⟩ := List.mem_map.mp hu
      exact usage_pkgs_eq w hnamed n v
    refine ⟨?_, ?_, hpkgs, ?_⟩
    · rw [hversions]
      exact nodup_versions w n
    · intro v
      rw [hversions]
      exact mem_versions w n v
    · intro u1 hu1 u2 hu2 dir hd1 hd2
      rw [hpkgs u1 hu1] at hd1
      rw [hpkgs u2 hu2] at hd2
      have h1 := of_decide_eq_true (List.mem_filter.mp hd1).2
      have h2 := of_decide_eq_true (List.mem_filter.mp hd2).2
      have hv : u1.version = u2.version := Option.some.inj (h1.symm.trans h2)
      unfold usagesOf at hu1 hu2
      obtain ⟨v1, _, rfl⟩ := List.mem_map.mp hu1
      obtain ⟨v2, _, rfl⟩ := List.mem_map.mp hu2
      simp only at hv
      subst hv
      rfl

/-- C2 amended, at packages A (`lib@1.0.0`), B (`lib@1.0.0`), C (`lib@2.0.0`): one
violation for `lib` with usages `1.0.0` by A and B, `2.0.0` by C. -/
theorem violation_usages_exact_witness :
    Readable worldABC ∧ WellNamed worldABC ∧
    checkVersions worldABC
      = .exited [⟨"lib", [⟨"1.0.0", ["mcp-a", "mcp-b"]⟩, ⟨"2.0.0", ["mcp-c"]⟩]⟩] 1 ∧
    ∃ report status, checkVersions worldABC = .exited report status ∧
      (reportedNames report).count "lib" = 1 ∧
      ∀ viol ∈ report, viol.name = "lib" →
        (viol.usages.map (fun u => u.version)).Nodup ∧
        (∀ v, v ∈ viol.usages.map (fun u => u.version)
          ↔ ∃ p ∈ packages worldABC, declaredVersion worldABC p "lib" = some v) ∧
        (∀ u ∈ viol.usages, u.pkgs = (directories worldABC).filter
          (fun dir => decide
            (declaredVersion worldABC (manifestPath dir) "lib" = some u.version))) ∧
        (∀ u1 ∈ viol.usages, ∀ u2 ∈ viol.usages, ∀ dir,
          dir ∈ u1.pkgs → dir ∈ u2.pkgs → u1 = u2) :=
  ⟨by decide, by decide, by decide,
    violation_usages_exact worldABC (by decide) (by decide) "lib"
      ⟨"mcp-a/package.json", by decide, "mcp-c/package.json", by decide,
        "1.0.0", "2.0.0", by decide, by decide, by decide⟩⟩

/-- C3 fails as stated: two packages that agree on every name they list, next to a
directory `mcp-docs` without `package.json`: the run ends by the uncaught exception of
line 16, with a non-zero status and no violation reported. -/
theorem agreeing_unreadable_exits_nonzero :
    Agreeing worldAgreeingBroken ∧
    packages worldAgreeingBroken
      = ["mcp-a/package.json", "mcp-b/package.json", "mcp-docs/package.json"] ∧
    worldAgreeingBroken.readJson "mcp-docs/package.json" = none ∧
    checkVersions worldAgreeingBroken = .crashed ∧
    (checkVersions worldAgreeingBroken).status = 1 ∧
    (checkVersions worldAgreeingBroken).violations = [] := by decide

/-- C3 amended: when every manifest loads the script runs to its end, its exit status is
non-zero iff a violation is printed, the status is 1 whenever one is printed, and a
workspace whose packages agree on every name they list prints no violation and ends with
status 0; when some manifest does not load the run ends by the uncaught exception, with
status 1 and no violation printed.  So the status is non-zero iff a violation is printed
or a manifest does not load. -/
theorem exit_status_iff_report (w : World) :
    (Readable w → ∃ report status, checkVersions w = .exited report status ∧
      (status ≠ 0 ↔ report ≠ []) ∧ (report ≠ [] → status = 1) ∧
      (Agreeing w → report = [] ∧ status = 0)) ∧
    (¬ Readable w → checkVersions w = .crashed ∧ (checkVersions w).status = 1 ∧
      (checkVersions w).violations = []) ∧
    ((checkVersions w).status ≠ 0 ↔ ((checkVersions w).violations ≠ [] ∨ ¬ Readable w)) := by
  have hcrash : ¬ Readable w → checkVersions w = .crashed := by
    intro hnot
    have hex : ∃ p ∈ packages w, w.readJson p = none := by
      by_contra hno
      apply hnot
      intro p hp
      cases hr : w.readJson p with
      | some pkg => rfl
      | none => exact absurd ⟨p, hp, hr⟩ hno
    exact checkVersions_crashed w hex
  refine ⟨?_, ?_, ?_⟩
  · intro hread
    refine ⟨reportOf w, _, checkVersions_eq w hread, ?_, ?_, ?_⟩
    · by_cases h : reportOf w = [] <;> simp [h]
    · intro h
      simp [h]
    · intro hagree
      have hnil : reportOf w = [] := by
        by_contra hne
        obtain ⟨viol, hviol⟩ := List.exists_mem_of_ne_nil _ hne
        have hname : viol.name ∈ reportedNames (reportOf w) :=
          List.mem_map.mpr ⟨viol, hviol, rfl⟩
        obtain ⟨p1, hp1, p2, hp2, v1, v2, hv, h1, h2⟩ :=
          (mem_reportedNames_iff w viol.name).mp hname
        exact hv (hagree p1 hp1 p2 hp2 _ (lists_of_declaredVersion w p1 _ v1 h1) _
          (lists_of_declaredVersion w p2 _ v2 h2) rfl)
      simp [hnil]
  · intro hnot
    rw [hcrash hnot]
    exact ⟨rfl, rfl, rfl⟩
  · by_cases hread : Readable w
    · rw [checkVersions_eq w hread]
      by_cases h : reportOf w = [] <;> simp [Outcome.status, Outcome.violations, h, hread]
    · rw [hcrash hread]
      simp [Outcome.status, Outcome.violations, hread]

/-- C3 amended, at three agreeing packages, each name declared by only some of them, at
a workspace with a violation, and at the agreeing workspace with an unreadable
directory. -/
theorem exit_status_iff_report_witness :
    (Readable worldAgreeing ∧ Agreeing worldAgreeing ∧
      checkVersions worldAgreeing = .exited [] 0 ∧
      ∃ report status, checkVersions worldAgreeing = .exited report status ∧
        (status ≠ 0 ↔ report ≠ []) ∧ (report ≠ [] → status = 1) ∧
        (Agreeing worldAgreeing → report = [] ∧ status = 0)) ∧
    (Readable worldABC ∧ (checkVersions worldABC).status = 1 ∧
      (checkVersions worldABC).violations ≠ [] ∧
      ∃ report status, checkVersions worldABC = .exited report status ∧
        (status ≠ 0 ↔ report ≠ []) ∧ (report ≠ [] → status = 1) ∧
        (Agreeing worldABC → report = [] ∧ status = 0)) ∧
    (¬ Readable worldAgreeingBroken ∧ checkVersions worldAgreeingBroken = .crashed ∧
      (checkVersions worldAgreeingBroken).status = 1 ∧
      (checkVersions worldAgreeingBroken).violations = []) :=
  ⟨⟨by decide, by decide, by decide, (exit_status_iff_report worldAgreeing).1 (by decide)⟩,
   ⟨by decide, by decide, by decide, (exit_status_iff_report worldABC).1 (by decide)⟩,
   ⟨by decide, (exit_status_iff_report worldAgreeingBroken).2.1 (by decide)⟩⟩

/-- C6 fails as stated: `alib` sorts before `zlib`, both are reported, and the violation
of `zlib` is printed first. -/
theorem report_not_lexicographic :
    "alib" < "zlib" ∧
    checkVersions worldZA
      = .exited [⟨"zlib", [⟨"1.0.0", ["mcp-a"]⟩, ⟨"2.0.0", ["mcp-b"]⟩]⟩,
                 ⟨"alib", [⟨"1.0.0", ["mcp-a"]⟩, ⟨"2.0.0", ["mcp-b"]⟩]⟩] 1 := by
  refine ⟨?_, by decide⟩
  rw [String.lt_iff_toList_lt]
  decide

/-- C6 amended: the violations are printed once per name, in the order in which the
names are first met by the index build loop (packages in processing order, the entries
of a package in the enumeration order of its merged map). -/
theorem report_in_first_declaration_order (w : World) (hread : Readable w) :
    ∃ report status, checkVersions w = .exited report status ∧
      (reportedNames report).Nodup ∧
      ∀ n1 ∈ reportedNames report, ∀ n2 ∈ reportedNames report,
        (List.indexOf n1 (reportedNames report) < List.indexOf n2 (reportedNames report)
          ↔ List.indexOf n1 (declaredNames w) < List.indexOf n2 (declaredNames w)) := by
  refine ⟨reportOf w, _, checkVersions_eq w hread, ?_, ?_⟩
  · rw [reportedNames_reportOf]
    exact (nodup_keys_versionIndex w).filter _
  · intro n1 h1 n2 h2
    rw [reportedNames_reportOf] at h1 h2 ⊢
    rw [indexOf_filter _ _ n1 n2 (List.mem_filter.mp h1).2 (List.mem_filter.mp h2).2,
      keys_eq_foldl, indexOf_foldl_setAdd, List.nil_append]

/-- C6 amended, at the workspace that declares `zlib` before `alib`. -/
theorem report_in_first_declaration_order_witness :
    Readable worldZA ∧ declaredNames worldZA = ["zlib", "alib", "zlib", "alib"] ∧
    ∃ report status, checkVersions worldZA = .exited report status ∧
      (reportedNames report).Nodup ∧
      ∀ n1 ∈ reportedNames report, ∀ n2 ∈ reportedNames report,
        (List.indexOf n1 (reportedNames report) < List.indexOf n2 (reportedNames report)
          ↔ List.indexOf n1 (declaredNames worldZA)
              < List.indexOf n2 (declaredNames worldZA)) :=
  ⟨by decide, by decide, report_in_first_declaration_order worldZA (by decide)⟩

/-- C7 fails as stated: the listing `mcp-b`, `mcp-a` is processed in that order, which is
not the lexicographic order of the paths, and the same two packages listed in the two
orders give two different reports.  Even a listing sorted by directory name (`mcp-a`,
`mcp-a-b`) is not processed in the order of the paths, `-` sorting before `/`. -/
theorem listing_order_changes_report :
    worldBA.listing.Perm worldAB.listing ∧ worldBA.readJson = worldAB.readJson ∧
    packages worldBA = ["mcp-b/package.json", "mcp-a/package.json"] ∧
    "mcp-a/package.json" < "mcp-b/package.json" ∧
    checkVersions worldAB
      = .exited [⟨"lib", [⟨"1.0.0", ["mcp-a"]⟩, ⟨"2.0.0", ["mcp-b"]⟩]⟩] 1 ∧
    checkVersions worldBA
      = .exited [⟨"lib", [⟨"2.0.0", ["mcp-b"]⟩, ⟨"1.0.0", ["mcp-a"]⟩]⟩] 1 ∧
    packages worldExtended = ["mcp-a/package.json", "mcp-a-b/package.json"] ∧
    "mcp-a-b/package.json" < "mcp-a/package.json" ∧
    checkVersions worldExtended
      = .exited [⟨"lib", [⟨"1.0.0", ["mcp-a"]⟩, ⟨"2.0.0", ["mcp-a-b"]⟩]⟩] 1 := by
  refine ⟨by decide, rfl, by decide, ?_, by decide, by decide, by decide, ?_, by decide⟩
  · rw [String.lt_iff_toList_lt]
    decide
  · rw [String.lt_iff_toList_lt]
    decide

/-- C7 amended: packages are processed in the order of the directory listing, and the
usage lines of every violation are in the order in which each distinct version string is
first seen across the packages in that order; the report is a function of the listing
and the manifests. -/
theorem usages_in_first_seen_order (w : World) (hread : Readable w) :
    (directories w).Sublist (w.listing.map (fun dirent => dirent.name)) ∧
    packages w = (directories w).map manifestPath ∧
    (∀ w2 : World, w2.listing = w.listing → w2.readJson = w.readJson →
      checkVersions w2 = checkVersions w) ∧
    buildIndex w.readJson (packages w) [] = some (versionIndex w) ∧
    ∃ report status, checkVersions w = .exited report status ∧
      ∀ viol ∈ report,
        viol.usages.map (fun u => u.version) = mapGet (versionIndex w) viol.name ∧
        ∀ v1 v2,
          (List.indexOf v1 (viol.usages.map (fun u => u.version))
              < List.indexOf v2 (viol.usages.map (fun u => u.version))
            ↔ List.indexOf v1 (declaredVersions w viol.name)
              < List.indexOf v2 (declaredVersions w viol.name)) := by
  refine ⟨?_, rfl, ?_, buildIndex_eq w.readJson (packages w) [] hread.exists_manifest,
    reportOf w, _, checkVersions_eq w hread, ?_⟩
  · unfold directories
    exact (List.filter_sublist _).map _
  · intro w2 hl hr
    obtain ⟨l2, r2⟩ := w2
    obtain ⟨l, r⟩ := w
    simp only at hl hr
    subst hl hr
    rfl
  · intro viol hviol
    rw [reportOf_eq] at hviol
    obtain ⟨n, _, rfl⟩ := List.mem_map.mp hviol
    have hversions : (usagesOf w n (mapGet (versionIndex w) n)).map (fun u => u.version)
        = mapGet (versionIndex w) n := by
      unfold usagesOf
      rw [List.map_map]
      exact List.map_id _
    refine ⟨hversions, fun v1 v2 => ?_⟩
    simp only [hversions]
    rw [versions_eq_foldl, indexOf_foldl_setAdd, List.nil_append]

/-- C7 amended, at the listing `mcp-b`, `mcp-a`: version `2.0.0` is seen first. -/
theorem usages_in_first_seen_order_witness :
    Readable worldBA ∧ declaredVersions worldBA "lib" = ["2.0.0", "1.0.0"] ∧
    ((directories worldBA).Sublist (worldBA.listing.map (fun dirent => dirent.name)) ∧
    packages worldBA = (directories worldBA).map manifestPath ∧
    (∀ w2 : World, w2.listing = worldBA.listing → w2.readJson = worldBA.readJson →
      checkVersions w2 = checkVersions worldBA) ∧
    buildIndex worldBA.readJson (packages worldBA) [] = some (versionIndex worldBA) ∧
    ∃ report status, checkVersions worldBA = .exited report status ∧
      ∀ viol ∈ report,
        viol.usages.map (fun u => u.version) = mapGet (versionIndex worldBA) viol.name ∧
        ∀ v1 v2,
          (List.indexOf v1 (viol.usages.map (fun u => u.version))
              < List.indexOf v2 (viol.usages.map (fun u => u.version))
            ↔ List.indexOf v1 (declaredVersions worldBA viol.name)
              < List.indexOf v2 (declaredVersions worldBA viol.name))) :=
  ⟨by decide, by decide, usages_in_first_seen_order worldBA (by decide)⟩

/-- C8 fails as stated: with one directory whose manifest cannot be read the run ends by
the uncaught exception and prints no violation, while the same workspace without that
directory reports `lib`. -/
theorem unreadable_manifest_not_contained :
    packages worldBroken = "mcp-0/package.json" :: packages worldAB ∧
    worldBroken.readJson "mcp-0/package.json" = none ∧
    worldBroken.readJson = worldAB.readJson ∧
    checkVersions worldBroken = .crashed ∧
    checkVersions worldAB
      = .exited [⟨"lib", [⟨"1.0.0", ["mcp-a"]⟩, ⟨"2.0.0", ["mcp-b"]⟩]⟩] 1 := by
  refine ⟨by decide, by decide, rfl, by decide, by decide⟩

/-- C8 amended: when the manifest of any package of the workspace cannot be read or
parsed, the whole run ends by the uncaught exception and no report is produced. -/
theorem unreadable_manifest_aborts (w : World)
    (h : ∃ p ∈ packages w, w.readJson p = none) : checkVersions w = .crashed :=
  checkVersions_crashed w h

/-- C8 amended, at the workspace with the unreadable `mcp-0`. -/
theorem unreadable_manifest_aborts_witness :
    (∃ p ∈ packages worldBroken, worldBroken.readJson p = none) ∧
    checkVersions worldBroken = .crashed :=
  ⟨⟨"mcp-0/package.json", by decide, by decide⟩,
    unreadable_manifest_aborts worldBroken ⟨"mcp-0/package.json", by decide, by decide⟩⟩

/-- C9: a name listed by only one package of the workspace, in whichever of its maps and
with whichever version strings, is never reported; and the run of a readable workspace
does end with a report. -/
theorem single_declarer_never_reported (w : World) (name : String)
    (hone : ∀ p1 ∈ packages w, ∀ p2 ∈ packages w,
      name ∈ (listed w p1).map Prod.fst → name ∈ (listed w p2).map Prod.fst → p1 = p2) :
    (∀ report status, checkVersions w = .exited report status →
        name ∉ reportedNames report) ∧
    (Readable w → ∃ report status, checkVersions w = .exited report status ∧
        name ∉ reportedNames report) := by
  have hnot : name ∉ reportedNames (reportOf w) := by
    intro hmem
    obtain ⟨p1, hp1, p2, hp2, v1, v2, hv, h1, h2⟩ := (mem_reportedNames_iff w name).mp hmem
    have hl1 : name ∈ (listed w p1).map Prod.fst :=
      List.mem_map.mpr ⟨(name, v1), lists_of_declaredVersion w p1 name v1 h1, rfl⟩
    have hl2 : name ∈ (listed w p2).map Prod.fst :=
      List.mem_map.mpr ⟨(name, v2), lists_of_declaredVersion w p2 name v2 h2, rfl⟩
    have hp : p1 = p2 := hone p1 hp1 p2 hp2 hl1 hl2
    subst hp
    exact hv (Option.some.inj (h1.symm.trans h2))
  constructor
  · intro report status hrun
    have hread := readable_of_exited w report status hrun
    rw [checkVersions_eq w hread] at hrun
    injection hrun with hreport _
    rw [← hreport]
    exact hnot
  · intro hread
    exact ⟨reportOf w, _, checkVersions_eq w hread, hnot⟩

/-- C9 at the single package that lists `lib` in both maps with different versions. -/
theorem single_declarer_never_reported_witness :
    (∀ p1 ∈ packages worldOverlap, ∀ p2 ∈ packages worldOverlap,
      "lib" ∈ (listed worldOverlap p1).map Prod.fst →
      "lib" ∈ (listed worldOverlap p2).map Prod.fst → p1 = p2) ∧
    listed worldOverlap "mcp-a/package.json" = [("lib", "1.0.0"), ("lib", "2.0.0")] ∧
    Readable worldOverlap ∧
    ((∀ report status, checkVersions worldOverlap = .exited report status →
        "lib" ∉ reportedNames report) ∧
    (Readable worldOverlap → ∃ report status,
      checkVersions worldOverlap = .exited report status ∧
        "lib" ∉ reportedNames report)) :=
  ⟨by decide, by decide, by decide,
    single_declarer_never_reported worldOverlap "lib" (by decide)⟩

end CheckVersions

namespace Bundle

/-! ## Lemmas on the orchestrator -/

theorem deployLoop_eq (env : Env) (registry : List String) (done : List ServiceResult) :
    deployLoop env registry done = done ++ registry.map (deployService env) := by
  induction registry generalizing done with
  | nil => simp [deployLoop]
  | cons service rest ih => simp [deployLoop, ih]

theorem deployService_service (env : Env) (service : String) :
    (deployService env service).service = service := by
  simp only [deployService]
  split
  · rfl
  · split <;> rfl

theorem results_eq (env : Env) (registry : List String) (h : env.buildOk = true) :
    (bundleWith env registry).results = registry.map (deployService env) := by
  simp [bundleWith, h, deployLoop_eq]

theorem results_services (env : Env) (registry : List String) (h : env.buildOk = true) :
    (bundleWith env registry).results.map (fun res => res.service) = registry := by
  rw [results_eq env registry h, List.map_map]
  conv_rhs => rw [← List.map_id registry]
  apply List.map_congr_left
  intro service _
  exact deployService_service env service

theorem deployService_missing (env : Env) (service : String)
    (h : env.pathExists (join env.monorepoRoot service) = false) :
    deployService env service
      = ⟨service, .sourceMissing,
          [Event.warn ("⚠️  Warning: " ++ service ++ " not found at "
            ++ join env.monorepoRoot service)]⟩ := by
  simp [deployService, h]

theorem deployService_failed (env : Env) (service : String)
    (hsrc : env.pathExists (join env.monorepoRoot service) = true)
    (hfail : env.deployOk service = false) :
    deployService env service
      = ⟨service, .extractFailed,
          [Event.deploy service (join env.serversDir (deployDirName service)) false,
           Event.error ("❌ Failed to deploy " ++ service),
           Event.error (env.deployDiagnostic service)]⟩ := by
  simp [deployService, hsrc, hfail]

theorem deployService_deployed (env : Env) (service : String)
    (hsrc : env.pathExists (join env.monorepoRoot service) = true)
    (hok : env.deployOk service = true) :
    deployService env service
      = ⟨service, .deployed,
          [Event.deploy service (join env.serversDir (deployDirName service)) true]
          ++ (if service = "mcp-stream-workflow" then
                streamWorkflowExtras env (join env.monorepoRoot service)
                  (join env.serversDir (deployDirName service))
              else [])
          ++ (if service = "mcp-stream-workflow-status" then
                dashboardExtras env service (join env.monorepoRoot service)
                  (join env.serversDir (deployDirName service))
              else [])⟩ := by
  simp [deployService, hsrc, hok]

theorem join_inj_right (a b c : String) (h : join a b = join a c) : b = c := by
  unfold join at h
  have hdata := congrArg String.data h
  simp only [String.data_append] at hdata
  exact String.ext (List.append_cancel_left hdata)

theorem join_dashboard_dist (a : String) :
    join (join a "dashboard") "dist" = join a "dashboard/dist" := by
  unfold join
  apply String.ext
  simp only [String.data_append, List.append_assoc]
  rfl

/-! ## The claims on `bundle.js` -/

/-- C4: when the batched build fails the run ends with exit status 1, no service is
processed, no extraction and no copy is invoked, and the servers directory is empty as
the reset left it, for every registry and every outcome of the existence checks. -/
theorem build_failure_aborts (env : Env) (registry : List String)
    (hbuild : env.buildOk = false) :
    (bundleWith env registry).exitCode = 1 ∧
    (bundleWith env registry).results = [] ∧
    (∀ e ∈ (bundleWith env registry).events, e.isDeploy = false ∧ e.isCopy = false) ∧
    targetEntries env (bundleWith env registry) = [] := by
  have hrun : bundleWith env registry
      = ⟨1, setupEvents env ++ [Event.error "❌ Build failed"], [], []⟩ := by
    simp [bundleWith, hbuild]
  rw [hrun]
  refine ⟨rfl, rfl, ?_, ?_⟩
  · intro e he
    simp only [Run.events, setupEvents, List.flatMap_nil, List.append_nil,
      List.mem_append, List.mem_cons, List.mem_singleton, List.not_mem_nil, or_false] at he
    rcases he with (((rfl | hsub) | hrm) | rfl | rfl) | rfl
    · exact ⟨rfl, rfl⟩
    · split at hsub
      · cases hsub
      · simp only [List.mem_cons, List.mem_singleton, List.not_mem_nil, or_false] at hsub
        rcases hsub with rfl | rfl <;> exact ⟨rfl, rfl⟩
    · split at hrm
      · rw [List.mem_singleton] at hrm
        subst hrm
        exact ⟨rfl, rfl⟩
      · cases hrm
    · exact ⟨rfl, rfl⟩
    · exact ⟨rfl, rfl⟩
    · exact ⟨rfl, rfl⟩
  · unfold targetEntries
    simp only [Run.events, setupEvents, List.flatMap_nil, List.append_nil]
    cases hprior : env.priorTarget with
    | none => cases hs : env.submoduleOk <;> simp [applyEvent]
    | some prior => cases hs : env.submoduleOk <;> simp [applyEvent]

/-- C4 at the sample checkout with a failing build and a populated servers directory. -/
theorem build_failure_aborts_witness :
    envBuildFails.buildOk = false ∧
    envBuildFails.priorTarget = some ["domain-checker", "opener"] ∧
    ((bundle envBuildFails).exitCode = 1 ∧
    (bundle envBuildFails).results = [] ∧
    (∀ e ∈ (bundle envBuildFails).events, e.isDeploy = false ∧ e.isCopy = false) ∧
    targetEntries envBuildFails (bundle envBuildFails) = []) :=
  ⟨rfl, rfl, build_failure_aborts envBuildFails services rfl⟩

/-- C5: after a successful build every service of the registry is processed, in registry
order and by the same loop body whatever happened to the others; a service whose
extraction fails ends as `extractFailed` without any copy, and a service whose source
exists and whose extraction succeeds ends as `deployed`, with the very record it has in
the run where no extraction fails. -/
theorem extract_failure_is_contained (env : Env) (registry : List String)
    (hbuild : env.buildOk = true) :
    (bundleWith env registry).exitCode = 0 ∧
    (bundleWith env registry).results = registry.map (deployService env) ∧
    (bundleWith env registry).results.map (fun res => res.service) = registry ∧
    ∀ service ∈ registry, env.pathExists (join env.monorepoRoot service) = true →
      (env.deployOk service = false →
        (deployService env service).status = .extractFailed ∧
        ∀ e ∈ (deployService env service).events, e.isCopy = false) ∧
      (env.deployOk service = true →
        (deployService env service).status = .deployed ∧
        deployService env service = deployService env.noExtractFailure service ∧
        deployService env service ∈ (bundleWith env.noExtractFailure registry).results) := by
  refine ⟨by simp [bundleWith, hbuild], results_eq env registry hbuild,
    results_services env registry hbuild, ?_⟩
  intro service hmem hsrc
  constructor
  · intro hfail
    rw [deployService_failed env service hsrc hfail]
    refine ⟨rfl, ?_⟩
    intro e he
    simp only [List.mem_cons, List.mem_singleton, List.not_mem_nil, or_false] at he
    rcases he with rfl | rfl | rfl <;> rfl
  · intro hok
    have hsame : deployService env service = deployService env.noExtractFailure service := by
      rw [deployService_deployed env service hsrc hok,
        deployService_deployed env.noExtractFailure service hsrc rfl]
      rfl
    refine ⟨?_, hsame, ?_⟩
    · rw [deployService_deployed env service hsrc hok]
    · rw [results_eq env.noExtractFailure registry hbuild, hsame]
      exact List.mem_map_of_mem _ hmem

/-- C5 at the sample checkout, where `mcp-opener` fails to deploy. -/
theorem extract_failure_is_contained_witness :
    envSample.buildOk = true ∧
    (bundle envSample).results.map (fun res => (res.service, res.status))
      = [("mcp-domain-checker", .deployed), ("mcp-domain-checker-price", .deployed),
         ("mcp-gitlab-ci", .sourceMissing), ("mcp-opener", .extractFailed),
         ("mcp-stream-workflow", .deployed), ("mcp-stream-workflow-status", .deployed)] ∧
    ((bundle envSample).exitCode = 0 ∧
    (bundle envSample).results = services.map (deployService envSample) ∧
    (bundle envSample).results.map (fun res => res.service) = services ∧
    ∀ service ∈ services, envSample.pathExists (join envSample.monorepoRoot service) = true →
      (envSample.deployOk service = false →
        (deployService envSample service).status = .extractFailed ∧
        ∀ e ∈ (deployService envSample service).events, e.isCopy = false) ∧
      (envSample.deployOk service = true →
        (deployService envSample service).status = .deployed ∧
        deployService envSample service = deployService envSample.noExtractFailure service ∧
        deployService envSample service
          ∈ (bundleWith envSample.noExtractFailure services).results)) :=
  ⟨rfl, by decide, extract_failure_is_contained envSample services rfl⟩

/-- C10: after a successful build the run ends with status 0 and processes the whole
registry; for a service whose source exists and whose extraction succeeds the status is
`deployed`, each artifact of its `extraArtifacts` row is copied to the deployment
directory iff its source exists, nothing else is copied, an absent required artifact
leaves a warning and an absent optional one leaves none. -/
theorem extra_artifacts_copied_iff_present (env : Env) (registry : List String)
    (hbuild : env.buildOk = true) :
    (bundleWith env registry).exitCode = 0 ∧
    (bundleWith env registry).results = registry.map (deployService env) ∧
    ∀ service, env.pathExists (join env.monorepoRoot service) = true →
      env.deployOk service = true →
      (deployService env service).status = .deployed ∧
      (∀ a ∈ extraArtifacts service,
        (Event.copy (join (join env.monorepoRoot service) a.sourceRelativePath)
            (join (join env.serversDir (deployDirName service)) a.destRelativePath)
            ∈ (deployService env service).events
          ↔ env.pathExists (join (join env.monorepoRoot service) a.sourceRelativePath)
              = true) ∧
        (env.pathExists (join (join env.monorepoRoot service) a.sourceRelativePath) = false →
          (a.required = true → ∃ msg, Event.warn msg ∈ (deployService env service).events) ∧
          (a.required = false →
            ∀ e ∈ (deployService env service).events, e.isWarn = false))) ∧
      (∀ e ∈ (deployService env service).events, e.isCopy = true →
        ∃ a ∈ extraArtifacts service,
          e = Event.copy (join (join env.monorepoRoot service) a.sourceRelativePath)
                (join (join env.serversDir (deployDirName service)) a.destRelativePath)) := by
  refine ⟨by simp [bundleWith, hbuild], results_eq env registry hbuild, ?_⟩
  intro service hsrc hok
  rw [deployService_deployed env service hsrc hok]
  refine ⟨rfl, ?_⟩
  have hne : ("mcp-stream-workflow" : String) ≠ "mcp-stream-workflow-status" := by decide
  have hpt : ("prompts" : String) ≠ "templates" := by decide
  by_cases hsw : service = "mcp-stream-workflow"
  · subst hsw
    have hsrcne : join (join env.monorepoRoot "mcp-stream-workflow") "prompts"
        ≠ join (join env.monorepoRoot "mcp-stream-workflow") "templates" :=
      fun h => hpt (join_inj_right _ _ _ h)
    simp only [extraArtifacts, streamWorkflowExtras, if_true, hne, if_false, List.append_nil,
      List.mem_cons, List.mem_singleton, List.not_mem_nil, or_false, forall_eq_or_imp,
      forall_eq, List.cons_append, List.nil_append, List.mem_append]
    cases hp : env.pathExists (join (join env.monorepoRoot "mcp-stream-workflow") "prompts")
      <;> cases ht :
        env.pathExists (join (join env.monorepoRoot "mcp-stream-workflow") "templates")
      <;> simp [Event.isWarn, Event.isCopy, hsrcne, hsrcne.symm]
  · by_cases hst : service = "mcp-stream-workflow-status"
    · subst hst
      simp only [extraArtifacts, dashboardExtras, hne.symm, if_false, if_true,
        List.append_nil, List.mem_cons, List.mem_singleton, List.not_mem_nil, or_false,
        forall_eq, List.cons_append, List.nil_append, join_dashboard_dist]
      cases hd : env.pathExists
          (join (join env.monorepoRoot "mcp-stream-workflow-status") "dashboard/dist")
        <;> simp [Event.isWarn, Event.isCopy]
    · simp [extraArtifacts, hsw, hst, Event.isCopy]

/-- C10 at the sample checkout: `prompts` is copied, `templates` is skipped without a
warning, the missing dashboard leaves a warning, and the three services are deployed. -/
theorem extra_artifacts_copied_iff_present_witness :
    envSample.buildOk = true ∧
    deployService envSample "mcp-stream-workflow"
      = ⟨"mcp-stream-workflow", .deployed,
          [Event.deploy "mcp-stream-workflow" "/repo/plugin/servers/stream-workflow" true,
           Event.copy "/repo/mcp-stream-workflow/prompts"
             "/repo/plugin/servers/stream-workflow/prompts"]⟩ ∧
    deployService envSample "mcp-stream-workflow-status"
      = ⟨"mcp-stream-workflow-status", .deployed,
          [Event.deploy "mcp-stream-workflow-status"
             "/repo/plugin/servers/stream-workflow-status" true,
           Event.warn "⚠️  Warning: Dashboard not built for mcp-stream-workflow-status"]⟩ ∧
    ((bundle envSample).exitCode = 0 ∧
    (bundle envSample).results = services.map (deployService envSample) ∧
    ∀ service, envSample.pathExists (join envSample.monorepoRoot service) = true →
      envSample.deployOk service = true →
      (deployService envSample service).status = .deployed ∧
      (∀ a ∈ extraArtifacts service,
        (Event.copy (join (join envSample.monorepoRoot service) a.sourceRelativePath)
            (join (join envSample.serversDir (deployDirName service)) a.destRelativePath)
            ∈ (deployService envSample service).events
          ↔ envSample.pathExists
              (join (join envSample.monorepoRoot service) a.sourceRelativePath) = true) ∧
        (envSample.pathExists
            (join (join envSample.monorepoRoot service) a.sourceRelativePath) = false →
          (a.required = true →
            ∃ msg, Event.warn msg ∈ (deployService envSample service).events) ∧
          (a.required = false →
            ∀ e ∈ (deployService envSample service).events, e.isWarn = false))) ∧
      (∀ e ∈ (deployService envSample service).events, e.isCopy = true →
        ∃ a ∈ extraArtifacts service,
          e = Event.copy (join (join envSample.monorepoRoot service) a.sourceRelativePath)
                (join (join envSample.serversDir (deployDirName service))
                  a.destRelativePath))) :=
  ⟨rfl, by decide, by decide, extra_artifacts_copied_iff_present envSample services rfl⟩

end Bundle
